import Mathlib

/-!
Shallow embedding of `src/@here/harp-lines/lib/TriangulateLines.ts`.

Numbers are modelled as real numbers (`ℝ`); the growable JS `number[]`
buffers become `List ℝ`.  The THREE.js vector capability used by the source
(constructed vectors, `add`, `sub`, `normalize`, `cross`, `dot`,
`multiplyScalar`, `Vector2.angle`) is embedded with its standard
mathematical meaning.  Over `ℝ` the division-by-zero convention `x / 0 = 0`
makes `normalize 0 = 0`; the NaN propagation that JS floats would exhibit on
degenerate (zero-length) segments is outside this model, and every theorem
that depends on segment directions carries distinctness hypotheses.

Array accesses are modelled with `List.getD · · 0`; every access performed
by the source on inputs within its documented contract (even flat length,
at least two coordinates) is in bounds, as noted at each definition.
-/

/-- 3D vector, mirroring the THREE.Vector3 capability used by the source. -/
structure Vec3 where
  x : ℝ
  y : ℝ
  z : ℝ

namespace Vec3

/-- Componentwise sum, mirroring `Vector3.add`. -/
def add (a b : Vec3) : Vec3 := ⟨a.x + b.x, a.y + b.y, a.z + b.z⟩

/-- Componentwise difference, mirroring `Vector3.sub`. -/
def sub (a b : Vec3) : Vec3 := ⟨a.x - b.x, a.y - b.y, a.z - b.z⟩

/-- Scalar multiple, mirroring `Vector3.multiplyScalar`. -/
def smul (s : ℝ) (a : Vec3) : Vec3 := ⟨s * a.x, s * a.y, s * a.z⟩

/-- Dot product, mirroring `Vector3.dot`. -/
def dot (a b : Vec3) : ℝ := a.x * b.x + a.y * b.y + a.z * b.z

/-- Cross product, mirroring `Vector3.cross`. -/
def cross (a b : Vec3) : Vec3 :=
  ⟨a.y * b.z - a.z * b.y, a.z * b.x - a.x * b.z, a.x * b.y - a.y * b.x⟩

/-- Euclidean length, mirroring `Vector3.length`. -/
noncomputable def length (a : Vec3) : ℝ := Real.sqrt (a.x * a.x + a.y * a.y + a.z * a.z)

/-- Normalization, mirroring `Vector3.normalize` (division by the length;
for the zero vector `ℝ`'s `1 / 0 = 0` convention yields the zero vector). -/
noncomputable def normalize (a : Vec3) : Vec3 := smul (1 / length a) a

end Vec3

/-- The constant `UNIT_Z` of the source. -/
def unitZ : Vec3 := ⟨0, 0, 1⟩

/-- The constant `POINTS = [0, 1, 2, 1, 3, 2]` of the source (local triangle
index pattern for one extruded segment). -/
def POINTS : List ℝ := [0, 1, 2, 1, 3, 2]

/-- The constant `SECTORS_IN_CIRCLE = 8` of the source. -/
def SECTORS_IN_CIRCLE : ℕ := 8

/-- The constant `STEP = Math.PI / SECTORS_IN_CIRCLE` of the source. -/
noncomputable def STEP : ℝ := Real.pi / SECTORS_IN_CIRCLE

/-- Read `points[i]` (JS array read; all reads performed on in-contract
inputs are in bounds, the default `0` is never observed there). -/
def pget (points : List ℝ) (i : ℕ) : ℝ := points.getD i 0

/-- The loop of `addCircle`: iterations `i, i+1, ..., i+n-1` of the source's
`for (let i = 0; i < SECTORS_IN_CIRCLE + 1; ++i)` loop, returning the vertex
components and indices pushed by those iterations.  `b` is `baseVertex`. -/
noncomputable def addCircleLoop (x y lineAngle radius b : ℝ) : ℕ → ℕ → List ℝ × List ℝ
  | _, 0 => ([], [])
  | i, n + 1 =>
    let angle : ℝ := STEP * i + Real.pi / 2 + lineAngle
    let rest := addCircleLoop x y lineAngle radius b (i + 1) n
    ([x + radius * Real.cos angle, y + radius * Real.sin angle, 0] ++ rest.1,
     [b, b + (i : ℝ) + 1, b + (((i + 1) % (SECTORS_IN_CIRCLE + 1) : ℕ) : ℝ) + 1] ++ rest.2)

/-- `addCircle` of the source: pushes the cap center `(x, y, 0)` and then
runs the rim/index loop.  `baseVertex = vertices.length / 3` as in the
source (exact division for the in-contract buffers, whose length is a
multiple of 3). -/
noncomputable def addCircle (x y lineAngle radius : ℝ) (vertices indices : List ℝ) :
    List ℝ × List ℝ :=
  let baseVertex : ℝ := (vertices.length : ℝ) / 3
  let rest := addCircleLoop x y lineAngle radius baseVertex 0 (SECTORS_IN_CIRCLE + 1)
  (vertices ++ ([x, y, 0] ++ rest.1), indices ++ rest.2)

/-- `numCirclePoints` of the source. -/
def numCirclePoints (_lineWidth : ℝ) : ℕ := SECTORS_IN_CIRCLE + 1

/-- The segment offset direction of the source's main loop:
`dir.copy(n).sub(p).normalize().cross(UNIT_Z)`. -/
noncomputable def segPerp (p n : Vec3) : Vec3 := Vec3.cross (Vec3.normalize (Vec3.sub n p)) unitZ

/-- The miter average of the source's main loop (the `i > 0` case):
`aver.copy(dir); aver.add(prevDir).multiplyScalar(1.0 - 0.5 * dir.dot(prevDir))`. -/
noncomputable def miterAver (dir prevDir : Vec3) : Vec3 :=
  Vec3.smul (1 - 0.5 * Vec3.dot dir prevDir) (Vec3.add dir prevDir)

/-- The six vertex components pushed for one polyline point:
`p0 = aver*(-width) + p` then `p1 = aver*width + p`, pushed in this order
(`vertices.push(p0.x, p0.y, p0.z, p1.x, p1.y, p1.z)`). -/
def offsetPair (p aver : Vec3) (width : ℝ) : List ℝ :=
  [p.x - width * aver.x, p.y - width * aver.y, p.z - width * aver.z,
   p.x + width * aver.x, p.y + width * aver.y, p.z + width * aver.z]

/-- The vertex-emitting loop of `triangulateLine` from iteration `i` on,
carrying `prevDir`.  The source iterates `i < N` with `N = points.length / 2`
(JS real division), which for integer `i` is exactly `2*i < points.length`;
the successor test `i + 1 < N` is exactly `2*(i+1) < points.length`. -/
noncomputable def extrudeVerts (points : List ℝ) (width : ℝ) (i : ℕ) (prevDir : Vec3) :
    List ℝ :=
  if _h : 2 * i < points.length then
    let p : Vec3 := ⟨pget points (i * 2), pget points (i * 2 + 1), 0⟩
    if 2 * (i + 1) < points.length then
      let n : Vec3 := ⟨pget points ((i + 1) * 2), pget points ((i + 1) * 2 + 1), 0⟩
      let dir := segPerp p n
      let aver := if i > 0 then miterAver dir prevDir else dir
      offsetPair p aver width ++ extrudeVerts points width (i + 1) dir
    else
      offsetPair p prevDir width ++ extrudeVerts points width (i + 1) prevDir
  else []
termination_by points.length - 2 * i
decreasing_by all_goals omega

/-- The index-emitting loop of `triangulateLine` from iteration `i` on:
`for (let i = 0; i < N - 1; ++i) POINTS.forEach(o => indices.push(baseVertex + i * 2 + o))`.
For integer `i`, `i < N - 1` is exactly `2*(i+1) < len`. -/
noncomputable def extrudeIndices (len : ℕ) (baseVertex : ℝ) (i : ℕ) : List ℝ :=
  if _h : 2 * (i + 1) < len then
    POINTS.map (fun o => baseVertex + (i : ℝ) * 2 + o) ++ extrudeIndices len baseVertex (i + 1)
  else []
termination_by len - 2 * i
decreasing_by all_goals omega

/-- `THREE.Vector2.angle` capability: the angle of `(x, y)` relative to the
positive X axis, normalized to `[0, 2π)` (i.e. `atan2(y, x)` shifted into
`[0, 2π)`). -/
noncomputable def angle2 (x y : ℝ) : ℝ :=
  if Complex.arg ⟨x, y⟩ < 0 then Complex.arg ⟨x, y⟩ + 2 * Real.pi else Complex.arg ⟨x, y⟩

/-- The start cap incline angle of the source:
`points.length !== 2 ? angleVec.set(points[2] - points[0], points[3] - points[1]).angle() : 0`. -/
noncomputable def startCapAngle (points : List ℝ) : ℝ :=
  if points.length ≠ 2 then angle2 (pget points 2 - pget points 0) (pget points 3 - pget points 1)
  else 0

/-- The end cap incline angle of the source:
`points.length !== 2 ? angleVec.set(points[(N-2)*2] - points[(N-1)*2], points[(N-2)*2+1] - points[(N-1)*2+1]).angle() : Math.PI`.
For even `points.length` the flat indices `(N-2)*2, (N-1)*2, (N-2)*2+1, (N-1)*2+1`
are exactly `len-4, len-2, len-3, len-1`. -/
noncomputable def endCapAngle (points : List ℝ) : ℝ :=
  if points.length ≠ 2 then
    angle2 (pget points (points.length - 4) - pget points (points.length - 2))
      (pget points (points.length - 3) - pget points (points.length - 1))
  else Real.pi

/-- `triangulateLine` of the source, returning the mutated
`(vertices, indices)` pair. -/
noncomputable def triangulateLine (points : List ℝ) (width : ℝ) (vertices indices : List ℝ)
    (startWithCircle : Bool := true) (endWithCircle : Bool := startWithCircle) :
    List ℝ × List ℝ :=
  if points.length < 2 then (vertices, indices)
  else
    let vi1 :=
      if startWithCircle then
        addCircle (pget points 0) (pget points 1) (startCapAngle points) width vertices indices
      else (vertices, indices)
    let baseVertex : ℝ := (vi1.1.length : ℝ) / 3
    let v2 := vi1.1 ++ extrudeVerts points width 0 ⟨0, 0, 0⟩
    let i2 := vi1.2 ++ extrudeIndices points.length baseVertex 0
    if endWithCircle then
      addCircle (pget points (points.length - 2)) (pget points (points.length - 1))
        (endCapAngle points) width v2 i2
    else (v2, i2)

/-- `reconstructLine` of the source.  The output array has
`inBuffer.length / 2` slots, zero-initialized (`new Float32Array`); the loop
`for (i = startOffset * 3, i2 = i * 2; i < outBuffer.length; i += 3, i2 += 6)`
writes slots `i, i+1, i+2` per iteration, so slot `j ≥ startOffset * 3` gets
the value written in the iteration with `i = j - ((j - startOffset*3) % 3)`,
reading components `2*j - r` and `2*j - r + 3` (`r = (j - startOffset*3) % 3`),
while slots `j < startOffset * 3` keep their initial `0`. -/
def reconstructLine (inBuffer : List ℝ) (startOffset : ℕ) : List ℝ :=
  (List.range (inBuffer.length / 2)).map (fun j =>
    if startOffset * 3 ≤ j then
      let r := (j - startOffset * 3) % 3
      pget inBuffer (2 * j - r) +
        (pget inBuffer (2 * j - r + 3) - pget inBuffer (2 * j - r)) * 0.5
    else 0)

/-- `reconstructLineWidth` of the source. -/
noncomputable def reconstructLineWidth (inBuffer : List ℝ) (startIndex : ℕ) : ℝ :=
  let xd := pget inBuffer (startIndex * 2 + 3) - pget inBuffer (startIndex * 2)
  let yd := pget inBuffer (startIndex * 2 + 3 + 1) - pget inBuffer (startIndex * 2 + 1)
  let zd := pget inBuffer (startIndex * 2 + 3 + 2) - pget inBuffer (startIndex * 2 + 2)
  Real.sqrt (xd * xd + yd * yd + zd * zd) * 0.5

/-- Polyline point `k` as read by the source's main loop:
`p.set(points[i * 2], points[i * 2 + 1], 0)`. -/
def ptAt (points : List ℝ) (k : ℕ) : Vec3 := ⟨pget points (k * 2), pget points (k * 2 + 1), 0⟩

/-- The offset direction computed for segment `k` of the polyline. -/
noncomputable def dirAt (points : List ℝ) (k : ℕ) : Vec3 :=
  segPerp (ptAt points k) (ptAt points (k + 1))

/-- The averaged direction actually used for the two offset vertices of
point `k` (for points that have a successor). -/
noncomputable def averAt (points : List ℝ) (k : ℕ) : Vec3 :=
  if k = 0 then dirAt points 0 else miterAver (dirAt points k) (dirAt points (k - 1))

/-- The direction whose `±width` multiples are added to point `k` by the
main loop of `triangulateLine` (started at `i = 0`): the averaged direction
while the point has a successor, the previous segment direction for the
last point. -/
noncomputable def emitDirAt (points : List ℝ) (k : ℕ) : Vec3 :=
  if 2 * (k + 1) < points.length then averAt points k else dirAt points (k - 1)

/-- Modelled from the claim's words, for comparison with the source's
`segPerp`: the left-hand perpendicular, i.e. the counterclockwise 90°
rotation about the Z axis, `(x, y, z) ↦ (-y, x, z)`. -/
def specLeftPerp90 (v : Vec3) : Vec3 := ⟨-v.y, v.x, v.z⟩

lemma getD_map_range (g : ℕ → ℝ) : ∀ n j, j < n → ((List.range n).map g).getD j 0 = g j := by
  intro n
  induction n with
  | zero => intro j hj; omega
  | succ n ih =>
    intro j hj
    rw [List.range_succ, List.map_append]
    rcases lt_or_ge j n with h | h
    · rw [List.getD_append _ _ _ _ (by simpa using h)]
      exact ih j h
    · have hj' : j = n := by omega
      subst hj'
      rw [List.getD_append_right _ _ _ _ (by simp)]
      simp

lemma length_flatMap_six (f : ℕ → List ℝ) (hf : ∀ k, (f k).length = 6) (n : ℕ) :
    ((List.range n).flatMap f).length = 6 * n := by
  induction n with
  | zero => simp
  | succ n ih =>
    rw [List.range_succ, List.flatMap_append, List.length_append, ih]
    simp [hf]
    omega

lemma getD_flatMap_six (f : ℕ → List ℝ) (hf : ∀ k, (f k).length = 6) :
    ∀ n k c, k < n → c < 6 → ((List.range n).flatMap f).getD (6 * k + c) 0 = (f k).getD c 0 := by
  intro n
  induction n with
  | zero => intro k c hk _; omega
  | succ n ih =>
    intro k c hk hc
    rw [List.range_succ, List.flatMap_append]
    rcases lt_or_ge k n with h | h
    · rw [List.getD_append]
      · exact ih k c h hc
      · rw [length_flatMap_six f hf]; omega
    · have hk' : k = n := by omega
      subst hk'
      rw [List.getD_append_right _ _ _ _ (by rw [length_flatMap_six f hf]; omega)]
      rw [length_flatMap_six f hf]
      have he : 6 * k + c - 6 * k = c := by omega
      rw [he]
      simp [List.flatMap_cons]

lemma reconstructLine_length (V : List ℝ) (s : ℕ) :
    (reconstructLine V s).length = V.length / 2 := by
  simp [reconstructLine]

lemma reconstructLine_zero_slot (V : List ℝ) (s j : ℕ) (hj : j < V.length / 2)
    (hs : j < s * 3) : (reconstructLine V s).getD j 0 = 0 := by
  unfold reconstructLine
  rw [getD_map_range _ _ _ hj]
  rw [if_neg (by omega)]

lemma reconstructLine_slot (V : List ℝ) (s k c : ℕ) (hc : c < 3) (hs : s ≤ k)
    (hj : 3 * k + c < V.length / 2) :
    (reconstructLine V s).getD (3 * k + c) 0 =
      pget V (6 * k + c) + (pget V (6 * k + c + 3) - pget V (6 * k + c)) * 0.5 := by
  unfold reconstructLine
  rw [getD_map_range _ _ _ hj]
  rw [if_pos (by omega : s * 3 ≤ 3 * k + c)]
  show pget V (2 * (3 * k + c) - (3 * k + c - s * 3) % 3) +
      (pget V (2 * (3 * k + c) - (3 * k + c - s * 3) % 3 + 3) -
        pget V (2 * (3 * k + c) - (3 * k + c - s * 3) % 3)) * 0.5 = _
  have he : 2 * (3 * k + c) - (3 * k + c - s * 3) % 3 = 6 * k + c := by omega
  rw [he]

lemma addCircleLoop_closed (x y a r b : ℝ) :
    ∀ n i, addCircleLoop x y a r b i n =
      ((List.range n).flatMap fun m =>
        [x + r * Real.cos (STEP * ((i + m : ℕ) : ℝ) + Real.pi / 2 + a),
         y + r * Real.sin (STEP * ((i + m : ℕ) : ℝ) + Real.pi / 2 + a), 0],
       (List.range n).flatMap fun m =>
        [b, b + ((i + m : ℕ) : ℝ) + 1,
         b + (((i + m + 1) % (SECTORS_IN_CIRCLE + 1) : ℕ) : ℝ) + 1]) := by
  intro n
  induction n with
  | zero => intro i; simp [addCircleLoop]
  | succ n ih =>
    intro i
    rw [addCircleLoop, ih (i + 1)]
    rw [List.range_succ_eq_map, List.flatMap_cons, List.flatMap_cons,
      List.flatMap_map, List.flatMap_map]
    refine Prod.ext ?_ ?_
    · show _ ++ _ = _ ++ _
      have h1 : ((i : ℕ) + (0 : ℕ) : ℕ) = i := by omega
      refine congr (congrArg _ ?_) ?_
      · rw [h1]
      · show (List.range n).flatMap _ = (List.range n).flatMap _
        apply congrArg
        funext m
        have h : i + 1 + m = i + m.succ := by omega
        rw [h]
    · show _ ++ _ = _ ++ _
      have h1 : ((i : ℕ) + (0 : ℕ) : ℕ) = i := by omega
      refine congr (congrArg _ ?_) ?_
      · rw [h1]
      · show (List.range n).flatMap _ = (List.range n).flatMap _
        apply congrArg
        funext m
        have h : i + 1 + m = i + m.succ := by omega
        rw [h]

lemma extrudeVerts_stop (pts : List ℝ) (w : ℝ) (i : ℕ) (d : Vec3)
    (h : ¬ 2 * i < pts.length) : extrudeVerts pts w i d = [] := by
  rw [extrudeVerts]
  simp [h]

lemma extrudeVerts_step (pts : List ℝ) (w : ℝ) (i : ℕ) (d : Vec3)
    (h : 2 * i < pts.length) (h2 : 2 * (i + 1) < pts.length) :
    extrudeVerts pts w i d =
      offsetPair (ptAt pts i) (if i > 0 then miterAver (dirAt pts i) d else dirAt pts i) w ++
        extrudeVerts pts w (i + 1) (dirAt pts i) := by
  rw [extrudeVerts]
  rw [dif_pos h, if_pos h2]
  rfl

lemma extrudeVerts_last (pts : List ℝ) (w : ℝ) (i : ℕ) (d : Vec3)
    (h : 2 * i < pts.length) (h2 : ¬ 2 * (i + 1) < pts.length) :
    extrudeVerts pts w i d =
      offsetPair (ptAt pts i) d w ++ extrudeVerts pts w (i + 1) d := by
  rw [extrudeVerts]
  rw [dif_pos h, if_neg h2]
  rfl

lemma extrude_aux (pts : List ℝ) (w : ℝ) :
    ∀ n i d, pts.length ≤ 2 * i + n → 1 ≤ i → pts.length % 2 = 0 →
      d = dirAt pts (i - 1) →
      extrudeVerts pts w i d =
        (List.range (pts.length / 2 - i)).flatMap
          (fun m => offsetPair (ptAt pts (i + m)) (emitDirAt pts (i + m)) w) := by
  intro n
  induction n with
  | zero =>
    intro i d h1 h2 _ _
    rw [extrudeVerts_stop pts w i d (by omega)]
    rw [show pts.length / 2 - i = 0 by omega]
    simp
  | succ n ih =>
    intro i d h1 h2 he h5
    by_cases hlt : 2 * i < pts.length
    · by_cases hnext : 2 * (i + 1) < pts.length
      · rw [extrudeVerts_step pts w i d hlt hnext]
        rw [ih (i + 1) (dirAt pts i) (by omega) (by omega) he (by simp)]
        rw [show pts.length / 2 - i = (pts.length / 2 - (i + 1)) + 1 by omega]
        rw [List.range_succ_eq_map, List.flatMap_cons, List.flatMap_map]
        refine congr (congrArg _ ?_) ?_
        · rw [show i + 0 = i by omega]
          rw [emitDirAt, if_pos hnext, averAt, if_neg (by omega : ¬ i = 0), h5]
          rw [if_pos (by omega : i > 0)]
        · apply congrArg
          funext m
          have h : i + 1 + m = i + m.succ := by omega
          rw [h]
      · rw [extrudeVerts_last pts w i d hlt hnext]
        rw [extrudeVerts_stop pts w (i + 1) d (by omega)]
        rw [show pts.length / 2 - i = 1 by omega]
        rw [show (List.range 1) = [0] from rfl, List.flatMap_cons]
        rw [show i + 0 = i by omega]
        rw [emitDirAt, if_neg hnext, h5]
        simp
    · rw [extrudeVerts_stop pts w i d hlt]
      rw [show pts.length / 2 - i = 0 by omega]
      simp

lemma extrude_closed (pts : List ℝ) (w : ℝ) (d0 : Vec3) (h4 : 4 ≤ pts.length)
    (he : pts.length % 2 = 0) :
    extrudeVerts pts w 0 d0 =
      (List.range (pts.length / 2)).flatMap
        (fun k => offsetPair (ptAt pts k) (emitDirAt pts k) w) := by
  rw [extrudeVerts_step pts w 0 d0 (by omega) (by omega)]
  rw [extrude_aux pts w pts.length 1 (dirAt pts 0) (by omega) (by omega) he (by simp)]
  rw [show pts.length / 2 = (pts.length / 2 - 1) + 1 by omega]
  rw [List.range_succ_eq_map, List.flatMap_cons, List.flatMap_map]
  refine congr (congrArg _ ?_) ?_
  · rw [if_neg (by omega : ¬ 0 > 0)]
    rw [emitDirAt, if_pos (by omega : 2 * (0 + 1) < pts.length), averAt, if_pos rfl]
  · apply congrArg
    funext m
    have h : 1 + m = m.succ := by omega
    rw [h]

lemma offsetPair_length (p a : Vec3) (w : ℝ) : (offsetPair p a w).length = 6 := rfl

lemma extrude_length (pts : List ℝ) (w : ℝ) (d0 : Vec3) (h4 : 4 ≤ pts.length)
    (he : pts.length % 2 = 0) :
    (extrudeVerts pts w 0 d0).length = 6 * (pts.length / 2) := by
  rw [extrude_closed pts w d0 h4 he]
  exact length_flatMap_six (fun k => offsetPair (ptAt pts k) (emitDirAt pts k) w)
    (fun k => offsetPair_length _ _ _) _

lemma triangulateLine_nocaps (pts : List ℝ) (w : ℝ) (v idx : List ℝ)
    (h : ¬ pts.length < 2) :
    triangulateLine pts w v idx false false =
      (v ++ extrudeVerts pts w 0 ⟨0, 0, 0⟩,
       idx ++ extrudeIndices pts.length ((v.length : ℝ) / 3) 0) := by
  rw [triangulateLine, if_neg h]
  simp

lemma reconstruct_of_extrude (pts : List ℝ) (w : ℝ) (N : ℕ) (hlen : pts.length = 2 * N)
    (hN : 2 ≤ N) (k : ℕ) (hk : k < N) (c : ℕ) (hc : c < 3) :
    (reconstructLine (extrudeVerts pts w 0 ⟨0, 0, 0⟩) 0).getD (3 * k + c) 0 =
      (offsetPair (ptAt pts k) (emitDirAt pts k) w).getD c 0 +
        ((offsetPair (ptAt pts k) (emitDirAt pts k) w).getD (c + 3) 0 -
          (offsetPair (ptAt pts k) (emitDirAt pts k) w).getD c 0) * 0.5 := by
  have hcl := extrude_closed pts w ⟨0, 0, 0⟩ (by omega) (by omega)
  have hlenV : (extrudeVerts pts w 0 ⟨0, 0, 0⟩).length = 6 * N := by
    rw [extrude_length pts w _ (by omega) (by omega)]
    omega
  rw [reconstructLine_slot _ 0 k c hc (by omega) (by rw [hlenV]; omega)]
  simp only [pget]
  rw [show 6 * k + c + 3 = 6 * k + (c + 3) by omega]
  rw [hcl]
  rw [getD_flatMap_six (fun k => offsetPair (ptAt pts k) (emitDirAt pts k) w)
    (fun k => offsetPair_length _ _ _) (pts.length / 2) k c (by omega) (by omega)]
  rw [getD_flatMap_six (fun k => offsetPair (ptAt pts k) (emitDirAt pts k) w)
    (fun k => offsetPair_length _ _ _) (pts.length / 2) k (c + 3) (by omega) (by omega)]

lemma offsetPair_mid (p a : Vec3) (w : ℝ) :
    ((offsetPair p a w).getD 0 0 +
        ((offsetPair p a w).getD 3 0 - (offsetPair p a w).getD 0 0) * 0.5 = p.x) ∧
    ((offsetPair p a w).getD 1 0 +
        ((offsetPair p a w).getD 4 0 - (offsetPair p a w).getD 1 0) * 0.5 = p.y) ∧
    ((offsetPair p a w).getD 2 0 +
        ((offsetPair p a w).getD 5 0 - (offsetPair p a w).getD 2 0) * 0.5 = p.z) := by
  refine ⟨?_, ?_, ?_⟩
  · show p.x - w * a.x + (p.x + w * a.x - (p.x - w * a.x)) * 0.5 = p.x
    ring
  · show p.y - w * a.y + (p.y + w * a.y - (p.y - w * a.y)) * 0.5 = p.y
    ring
  · show p.z - w * a.z + (p.z + w * a.z - (p.z - w * a.z)) * 0.5 = p.z
    ring

/-- C1: round-trip reconstruction.  For every polyline of at least 2
distinct points (flat length `2*N`, consecutive points distinct) extruded by
`triangulateLine` with width `w` and both cap flags `false` into empty
buffers, `reconstructLine` of the resulting vertex buffer with `startOffset`
0 recovers every original point within tolerance `1e-5 = 1/100000`: output
slots `3k, 3k+1, 3k+2` hold the midpoint of the `±width` offset pair of
point `k`, namely `(x_k, y_k, 0)`. -/
theorem c1_roundtrip (points : List ℝ) (w : ℝ) (N : ℕ)
    (hlen : points.length = 2 * N) (hN : 2 ≤ N)
    (hdist : ∀ k, k + 1 < N → ptAt points k ≠ ptAt points (k + 1))
    (k : ℕ) (hk : k < N) :
    |(reconstructLine (triangulateLine points w [] [] false false).1 0).getD (3 * k) 0 -
        pget points (2 * k)| ≤ 1 / 100000 ∧
    |(reconstructLine (triangulateLine points w [] [] false false).1 0).getD (3 * k + 1) 0 -
        pget points (2 * k + 1)| ≤ 1 / 100000 ∧
    |(reconstructLine (triangulateLine points w [] [] false false).1 0).getD (3 * k + 2) 0 -
        0| ≤ 1 / 100000 := by
  have hV : (triangulateLine points w [] [] false false).1 =
      extrudeVerts points w 0 ⟨0, 0, 0⟩ := by
    rw [triangulateLine_nocaps points w [] [] (by omega)]
    simp
  rw [hV]
  have h0 := reconstruct_of_extrude points w N hlen hN k hk 0 (by omega)
  have h1 := reconstruct_of_extrude points w N hlen hN k hk 1 (by omega)
  have h2 := reconstruct_of_extrude points w N hlen hN k hk 2 (by omega)
  simp only [Nat.add_zero] at h0
  refine ⟨?_, ?_, ?_⟩
  · rw [h0, (offsetPair_mid (ptAt points k) (emitDirAt points k) w).1]
    simp [ptAt, pget, Nat.mul_comm]
  · rw [h1, (offsetPair_mid (ptAt points k) (emitDirAt points k) w).2.1]
    simp [ptAt, pget, Nat.mul_comm]
  · rw [h2, (offsetPair_mid (ptAt points k) (emitDirAt points k) w).2.2]
    simp [ptAt]

/-- C1 witness: the round-trip theorem applied to the concrete polyline
`[0,0, 10,0]` with width 2. -/
theorem c1_roundtrip_witness :
    |(reconstructLine (triangulateLine [0, 0, 10, 0] 2 [] [] false false).1 0).getD 0 0 -
        pget [0, 0, 10, 0] 0| ≤ 1 / 100000 ∧
    |(reconstructLine (triangulateLine [0, 0, 10, 0] 2 [] [] false false).1 0).getD 1 0 -
        pget [0, 0, 10, 0] 1| ≤ 1 / 100000 ∧
    |(reconstructLine (triangulateLine [0, 0, 10, 0] 2 [] [] false false).1 0).getD 2 0 -
        0| ≤ 1 / 100000 :=
  c1_roundtrip [0, 0, 10, 0] 2 2 (by simp) (by norm_num)
    (by
      intro k hk
      have hk0 : k = 0 := by omega
      subst hk0
      simp [ptAt, pget, Vec3.mk.injEq])
    0 (by norm_num)

lemma normalize_ten : Vec3.normalize ⟨10, 0, 0⟩ = ⟨1, 0, 0⟩ := by
  have h : Real.sqrt ((10 : ℝ) * 10 + 0 * 0 + 0 * 0) = 10 := by
    rw [show ((10 : ℝ) * 10 + 0 * 0 + 0 * 0) = 10 ^ 2 by norm_num]
    exact Real.sqrt_sq (by norm_num)
  simp [Vec3.normalize, Vec3.length, Vec3.smul, h]

lemma segPerp_ten : segPerp ⟨0, 0, 0⟩ ⟨10, 0, 0⟩ = ⟨0, -1, 0⟩ := by
  have h : Vec3.sub ⟨10, 0, 0⟩ ⟨0, 0, 0⟩ = ⟨10, 0, 0⟩ := by
    simp [Vec3.sub]
  rw [segPerp, h, normalize_ten]
  simp [Vec3.cross, unitZ]

lemma extrudeVerts_ten : extrudeVerts [0, 0, 10, 0] 2 0 ⟨0, 0, 0⟩ =
    [0, 2, 0, 0, -2, 0, 10, 2, 0, 10, -2, 0] := by
  rw [extrudeVerts]
  norm_num [pget, segPerp_ten]
  rw [extrudeVerts]
  norm_num [pget, segPerp_ten]
  rw [extrudeVerts]
  norm_num [offsetPair]

lemma extrudeIndices_four : extrudeIndices 4 0 0 = [0, 1, 2, 1, 3, 2] := by
  rw [extrudeIndices]
  norm_num [POINTS]
  rw [extrudeIndices]
  norm_num

lemma triEval10 : triangulateLine [0, 0, 10, 0] 2 [] [] false false =
    ([0, 2, 0, 0, -2, 0, 10, 2, 0, 10, -2, 0], [0, 1, 2, 1, 3, 2]) := by
  rw [triangulateLine]
  norm_num [extrudeVerts_ten, extrudeIndices_four]

lemma singleEval (x y w : ℝ) (v idx : List ℝ) :
    triangulateLine [x, y] w v idx false false = (v ++ [x, y, 0, x, y, 0], idx) := by
  rw [triangulateLine]
  norm_num
  constructor
  · rw [extrudeVerts]
    norm_num [pget]
    rw [extrudeVerts]
    norm_num [offsetPair]
  · rw [extrudeIndices]
    norm_num

/-- C2 (amended): the concrete scenario
`triangulateLine([0,0, 10,0], 2, v, i, false, false)` on empty buffers
leaves `v = [0,2,0, 0,-2,0, 10,2,0, 10,-2,0]` and `i = [0,1,2, 1,3,2]`.
The claimed vertex buffer had the `+2`/`-2` rows swapped: the source pushes
`p0 = p - width*dir` first and `dir = normalize(p1-p0) × ẑ = (0,-1,0)`, so
the `-width` offset of the first point is `(0, 2, 0)`. -/
theorem c2_concrete_amended : triangulateLine [0, 0, 10, 0] 2 [] [] false false =
    ([0, 2, 0, 0, -2, 0, 10, 2, 0, 10, -2, 0], [0, 1, 2, 1, 3, 2]) := triEval10

/-- C2 counterexample: the vertex buffer claimed by the spec,
`[0,-2,0, 0,2,0, 10,-2,0, 10,2,0]`, is not what the call produces. -/
theorem c2_concrete_counterexample :
    (triangulateLine [0, 0, 10, 0] 2 [] [] false false).1 ≠
      [0, -2, 0, 0, 2, 0, 10, -2, 0, 10, 2, 0] := by
  norm_num [triEval10]

/-- C10: single-point input.  `triangulateLine [x, y] w v i false false`
passes the `points.length < 2` guard and is not a no-op: it appends exactly
two vertices, both `(x, y, 0)` (the zero-initialized previous direction
collapses the `±width` offsets), and appends no indices. -/
theorem c10_single_point (x y w : ℝ) (v idx : List ℝ) :
    triangulateLine [x, y] w v idx false false = (v ++ [x, y, 0, x, y, 0], idx) :=
  singleEval x y w v idx

/-- C4 (amended): the silent no-op applies to inputs with fewer than 2
numbers (fewer than one point), not fewer than 4 numbers: for every such
input, width, and cap-flag combination, `triangulateLine` leaves both
buffers unchanged.  (A 2-number input — one point — does append geometry,
see the counterexample and C10.) -/
theorem c4_short_amended (points : List ℝ) (w : ℝ) (v idx : List ℝ) (s e : Bool)
    (h : points.length < 2) : triangulateLine points w v idx s e = (v, idx) := by
  rw [triangulateLine, if_pos h]

/-- C4 witness: the amended no-op theorem applied to the empty input. -/
theorem c4_short_amended_witness :
    (([] : List ℝ)).length < 2 ∧ triangulateLine [] 1 [] [] true true = ([], []) :=
  ⟨by simp, c4_short_amended [] 1 [] [] true true (by simp)⟩

/-- C4 counterexample: the input `[0, 0]` has fewer than 4 numbers (one
point), yet the call is not a no-op — it appends two vertices. -/
theorem c4_short_counterexample :
    triangulateLine [0, 0] 1 [] [] false false ≠ (([] : List ℝ), ([] : List ℝ)) := by
  rw [singleEval]
  simp

lemma addCircle_appends (x y a r : ℝ) (V I : List ℝ) :
    ∃ A B, addCircle x y a r V I = (V ++ A, I ++ B) := ⟨_, _, rfl⟩

/-- C9: append-only buffer growth.  Every call to `triangulateLine`
(including its internal cap generation) returns buffers that extend the
input buffers: the prior contents survive as a prefix, unchanged in value
and position; in particular a second call leaves the first call's output
intact. -/
theorem c9_append_only (points : List ℝ) (w : ℝ) (v idx : List ℝ) (s e : Bool) :
    ∃ v2 i2, triangulateLine points w v idx s e = (v ++ v2, idx ++ i2) := by
  by_cases h : points.length < 2
  · exact ⟨[], [], by rw [triangulateLine, if_pos h]; simp⟩
  · obtain ⟨A, B, hAB⟩ : ∃ A B,
        (if s = true then
          addCircle (pget points 0) (pget points 1) (startCapAngle points) w v idx
        else (v, idx)) = (v ++ A, idx ++ B) := by
      cases s
      · exact ⟨[], [], by simp⟩
      · obtain ⟨A, B, hAB⟩ := addCircle_appends (pget points 0) (pget points 1)
          (startCapAngle points) w v idx
        exact ⟨A, B, by simpa using hAB⟩
    rw [triangulateLine, if_neg h, hAB]
    cases e
    · refine ⟨A ++ extrudeVerts points w 0 ⟨0, 0, 0⟩,
        B ++ extrudeIndices points.length (((v ++ A).length : ℝ) / 3) 0, ?_⟩
      show ((v ++ A) ++ extrudeVerts points w 0 ⟨0, 0, 0⟩,
          (idx ++ B) ++ extrudeIndices points.length (((v ++ A).length : ℝ) / 3) 0) =
        (v ++ (A ++ extrudeVerts points w 0 ⟨0, 0, 0⟩),
          idx ++ (B ++ extrudeIndices points.length (((v ++ A).length : ℝ) / 3) 0))
      rw [List.append_assoc, List.append_assoc]
    · obtain ⟨C, D, hCD⟩ := addCircle_appends (pget points (points.length - 2))
        (pget points (points.length - 1)) (endCapAngle points) w
        ((v ++ A) ++ extrudeVerts points w 0 ⟨0, 0, 0⟩)
        ((idx ++ B) ++ extrudeIndices points.length (((v ++ A).length : ℝ) / 3) 0)
      refine ⟨A ++ (extrudeVerts points w 0 ⟨0, 0, 0⟩ ++ C),
        B ++ (extrudeIndices points.length (((v ++ A).length : ℝ) / 3) 0 ++ D), ?_⟩
      show addCircle (pget points (points.length - 2)) (pget points (points.length - 1))
          (endCapAngle points) w ((v ++ A) ++ extrudeVerts points w 0 ⟨0, 0, 0⟩)
          ((idx ++ B) ++ extrudeIndices points.length (((v ++ A).length : ℝ) / 3) 0) =
        (v ++ (A ++ (extrudeVerts points w 0 ⟨0, 0, 0⟩ ++ C)),
          idx ++ (B ++ (extrudeIndices points.length (((v ++ A).length : ℝ) / 3) 0 ++ D)))
      rw [hCD]
      rw [List.append_assoc, List.append_assoc, List.append_assoc, List.append_assoc]

lemma segPerp_eq (p n : Vec3) :
    segPerp p n = ⟨(Vec3.normalize (Vec3.sub n p)).y, -(Vec3.normalize (Vec3.sub n p)).x, 0⟩ := by
  simp [segPerp, Vec3.cross, unitZ]

lemma segPerp_unit (p n : Vec3) (hpz : p.z = 0) (hnz : n.z = 0)
    (hne : n.x ≠ p.x ∨ n.y ≠ p.y) :
    (segPerp p n).x * (segPerp p n).x + (segPerp p n).y * (segPerp p n).y +
      (segPerp p n).z * (segPerp p n).z = 1 := by
  have hpos : 0 < (n.x - p.x) * (n.x - p.x) + (n.y - p.y) * (n.y - p.y) := by
    rcases hne with hx | hy
    · have h1 : 0 < (n.x - p.x) * (n.x - p.x) := mul_self_pos.mpr (sub_ne_zero_of_ne hx)
      nlinarith [mul_self_nonneg (n.y - p.y)]
    · have h1 : 0 < (n.y - p.y) * (n.y - p.y) := mul_self_pos.mpr (sub_ne_zero_of_ne hy)
      nlinarith [mul_self_nonneg (n.x - p.x)]
  have hLsq : Real.sqrt ((n.x - p.x) * (n.x - p.x) + (n.y - p.y) * (n.y - p.y)) *
      Real.sqrt ((n.x - p.x) * (n.x - p.x) + (n.y - p.y) * (n.y - p.y)) =
      (n.x - p.x) * (n.x - p.x) + (n.y - p.y) * (n.y - p.y) :=
    Real.mul_self_sqrt (le_of_lt hpos)
  have hLpos : 0 < Real.sqrt ((n.x - p.x) * (n.x - p.x) + (n.y - p.y) * (n.y - p.y)) :=
    Real.sqrt_pos.mpr hpos
  simp only [segPerp, Vec3.normalize, Vec3.sub, Vec3.smul, Vec3.length, Vec3.cross, unitZ,
    hpz, hnz]
  norm_num
  field_simp
  nlinarith [hLsq, hLpos]

lemma reconstructLineWidth_pair (pts : List ℝ) (w : ℝ) (N k : ℕ)
    (hlen : pts.length = 2 * N) (hN : 2 ≤ N) (hk : k < N) (hw : 0 ≤ w)
    (hunit : (emitDirAt pts k).x * (emitDirAt pts k).x +
      (emitDirAt pts k).y * (emitDirAt pts k).y +
      (emitDirAt pts k).z * (emitDirAt pts k).z = 1) :
    reconstructLineWidth (extrudeVerts pts w 0 ⟨0, 0, 0⟩) (3 * k) = w := by
  have hcl := extrude_closed pts w ⟨0, 0, 0⟩ (by omega) (by omega)
  unfold reconstructLineWidth
  simp only [pget]
  rw [show 3 * k * 2 + 3 = 6 * k + 3 by ring, show 3 * k * 2 = 6 * k + 0 by ring,
    show 6 * k + 3 + 1 = 6 * k + 4 by ring, show 6 * k + 0 + 1 = 6 * k + 1 by ring,
    show 6 * k + 3 + 2 = 6 * k + 5 by ring, show 6 * k + 0 + 2 = 6 * k + 2 by ring]
  rw [hcl]
  rw [getD_flatMap_six (fun k => offsetPair (ptAt pts k) (emitDirAt pts k) w)
    (fun k => offsetPair_length _ _ _) (pts.length / 2) k 3 (by omega) (by omega)]
  rw [getD_flatMap_six (fun k => offsetPair (ptAt pts k) (emitDirAt pts k) w)
    (fun k => offsetPair_length _ _ _) (pts.length / 2) k 0 (by omega) (by omega)]
  rw [getD_flatMap_six (fun k => offsetPair (ptAt pts k) (emitDirAt pts k) w)
    (fun k => offsetPair_length _ _ _) (pts.length / 2) k 4 (by omega) (by omega)]
  rw [getD_flatMap_six (fun k => offsetPair (ptAt pts k) (emitDirAt pts k) w)
    (fun k => offsetPair_length _ _ _) (pts.length / 2) k 1 (by omega) (by omega)]
  rw [getD_flatMap_six (fun k => offsetPair (ptAt pts k) (emitDirAt pts k) w)
    (fun k => offsetPair_length _ _ _) (pts.length / 2) k 5 (by omega) (by omega)]
  rw [getD_flatMap_six (fun k => offsetPair (ptAt pts k) (emitDirAt pts k) w)
    (fun k => offsetPair_length _ _ _) (pts.length / 2) k 2 (by omega) (by omega)]
  show Real.sqrt (((ptAt pts k).x + w * (emitDirAt pts k).x -
      ((ptAt pts k).x - w * (emitDirAt pts k).x)) *
      ((ptAt pts k).x + w * (emitDirAt pts k).x - ((ptAt pts k).x - w * (emitDirAt pts k).x)) +
      ((ptAt pts k).y + w * (emitDirAt pts k).y -
        ((ptAt pts k).y - w * (emitDirAt pts k).y)) *
      ((ptAt pts k).y + w * (emitDirAt pts k).y - ((ptAt pts k).y - w * (emitDirAt pts k).y)) +
      ((ptAt pts k).z + w * (emitDirAt pts k).z -
        ((ptAt pts k).z - w * (emitDirAt pts k).z)) *
      ((ptAt pts k).z + w * (emitDirAt pts k).z - ((ptAt pts k).z - w * (emitDirAt pts k).z))) *
      0.5 = w
  have harg : ((ptAt pts k).x + w * (emitDirAt pts k).x -
      ((ptAt pts k).x - w * (emitDirAt pts k).x)) *
      ((ptAt pts k).x + w * (emitDirAt pts k).x - ((ptAt pts k).x - w * (emitDirAt pts k).x)) +
      ((ptAt pts k).y + w * (emitDirAt pts k).y -
        ((ptAt pts k).y - w * (emitDirAt pts k).y)) *
      ((ptAt pts k).y + w * (emitDirAt pts k).y - ((ptAt pts k).y - w * (emitDirAt pts k).y)) +
      ((ptAt pts k).z + w * (emitDirAt pts k).z -
        ((ptAt pts k).z - w * (emitDirAt pts k).z)) *
      ((ptAt pts k).z + w * (emitDirAt pts k).z - ((ptAt pts k).z - w * (emitDirAt pts k).z)) =
      (2 * w) ^ 2 := by
    have h4w : (2 * w) ^ 2 = 4 * w ^ 2 * 1 := by ring
    rw [h4w, ← hunit]
    ring
  rw [harg, Real.sqrt_sq (by linarith : 0 ≤ 2 * w)]
  ring

/-- C3 (amended): width reconstruction.  `reconstructLineWidth` addresses
flat components `2*startIndex .. 2*startIndex + 5`, so a vertex pair `k` is
addressed by `startIndex = 3*k`, not by `k` itself.  For a polyline of at
least 2 points with distinct first two and distinct last two points,
extruded with width `w ≥ 0` and both cap flags `false` into empty buffers,
it returns `w` at `startIndex 0` (first pair) and at `startIndex 3*(N-1)`
(last pair).  It does not return `w` at every in-bounds `startIndex`: other
values read across vertex boundaries (see the counterexample), and interior
mitered pairs scale the distance by the miter length. -/
theorem c3_width_amended (points : List ℝ) (w : ℝ) (N : ℕ)
    (hlen : points.length = 2 * N) (hN : 2 ≤ N) (hw : 0 ≤ w)
    (hfirst : ptAt points 0 ≠ ptAt points 1)
    (hlast : ptAt points (N - 2) ≠ ptAt points (N - 1)) :
    reconstructLineWidth (triangulateLine points w [] [] false false).1 0 = w ∧
    reconstructLineWidth (triangulateLine points w [] [] false false).1 (3 * (N - 1)) = w := by
  have hV : (triangulateLine points w [] [] false false).1 =
      extrudeVerts points w 0 ⟨0, 0, 0⟩ := by
    rw [triangulateLine_nocaps points w [] [] (by omega)]
    simp
  rw [hV]
  constructor
  · have hne : (ptAt points 1).x ≠ (ptAt points 0).x ∨ (ptAt points 1).y ≠ (ptAt points 0).y := by
      by_contra hc
      push_neg at hc
      obtain ⟨hx, hy⟩ := hc
      exact hfirst (by simp [ptAt] at hx hy ⊢; exact ⟨hx.symm, hy.symm⟩)
    have h0 : emitDirAt points 0 = dirAt points 0 := by
      rw [emitDirAt, if_pos (by omega : 2 * (0 + 1) < points.length), averAt, if_pos rfl]
    have hunit := segPerp_unit (ptAt points 0) (ptAt points 1) rfl rfl hne
    have hres := reconstructLineWidth_pair points w N 0 hlen hN (by omega) hw
      (by rw [h0, dirAt]; exact hunit)
    simpa using hres
  · have hne : (ptAt points (N - 1)).x ≠ (ptAt points (N - 2)).x ∨
        (ptAt points (N - 1)).y ≠ (ptAt points (N - 2)).y := by
      by_contra hc
      push_neg at hc
      obtain ⟨hx, hy⟩ := hc
      exact hlast (by simp [ptAt] at hx hy ⊢; exact ⟨hx.symm, hy.symm⟩)
    have h0 : emitDirAt points (N - 1) = dirAt points (N - 2) := by
      rw [emitDirAt, if_neg (by omega : ¬ 2 * ((N - 1) + 1) < points.length)]
      rw [show N - 1 - 1 = N - 2 by omega]
    have hunit := segPerp_unit (ptAt points (N - 2)) (ptAt points (N - 1)) rfl rfl hne
    exact reconstructLineWidth_pair points w N (N - 1) hlen hN (by omega) hw
      (by rw [h0, dirAt, show N - 2 + 1 = N - 1 by omega]; exact hunit)

/-- C3 witness: the amended width theorem applied to `[0,0, 10,0]`,
width 2. -/
theorem c3_width_amended_witness :
    reconstructLineWidth (triangulateLine [0, 0, 10, 0] 2 [] [] false false).1 0 = 2 ∧
    reconstructLineWidth (triangulateLine [0, 0, 10, 0] 2 [] [] false false).1 3 = 2 :=
  c3_width_amended [0, 0, 10, 0] 2 2 (by simp) (by norm_num) (by norm_num)
    (by simp [ptAt, pget, Vec3.mk.injEq])
    (by simp [ptAt, pget, Vec3.mk.injEq])

/-- C3 counterexample: on the buffer extruded from `[0,0, 10,0]` with
width 2, the in-bounds `startIndex = 1` yields `sqrt(116)/2 ≈ 5.39`, not 2:
the claim fails for this valid `startIndex`. -/
theorem c3_width_counterexample :
    reconstructLineWidth (triangulateLine [0, 0, 10, 0] 2 [] [] false false).1 1 ≠ 2 := by
  rw [show (triangulateLine [0, 0, 10, 0] 2 [] [] false false).1 =
    [0, 2, 0, 0, -2, 0, 10, 2, 0, 10, -2, 0] by rw [triEval10]]
  unfold reconstructLineWidth
  norm_num [pget]
  intro heq
  have h4 : Real.sqrt 116 = 4 := by linarith
  have hsq := Real.sq_sqrt (by norm_num : (0 : ℝ) ≤ 116)
  rw [h4] at hsq
  norm_num at hsq

/-- C8 (amended): `reconstructLine` output contract.  The output always
has half the input's component count, independent of `startOffset`; output
slots from `startOffset` onward (slot `3k+c`, `k ≥ startOffset`) are the
componentwise midpoints of input vertices `2k` and `2k+1`; but the head
slots before `startOffset*3` are left at their zero initialization — they
are never reconstructed from cap geometry (see the counterexample). -/
theorem c8_reconstruct_amended (buf : List ℝ) (s : ℕ) (hlen : buf.length % 6 = 0) :
    (reconstructLine buf s).length = buf.length / 2 ∧
    (∀ j, j < buf.length / 2 → j < s * 3 → (reconstructLine buf s).getD j 0 = 0) ∧
    (∀ k c, c < 3 → s ≤ k → 3 * k + c < buf.length / 2 →
      (reconstructLine buf s).getD (3 * k + c) 0 =
        pget buf (6 * k + c) + (pget buf (6 * k + c + 3) - pget buf (6 * k + c)) * 0.5) :=
  ⟨reconstructLine_length buf s,
   fun j hj hjs => reconstructLine_zero_slot buf s j hj hjs,
   fun k c hc hs hj => reconstructLine_slot buf s k c hc hs hj⟩

/-- C8 witness: the amended contract applied to a concrete 4-vertex
buffer with `startOffset 1`. -/
theorem c8_reconstruct_amended_witness :
    (reconstructLine [1, 1, 1, 3, 3, 3, 5, 5, 5, 7, 7, 7] 1).length = 6 ∧
    (reconstructLine [1, 1, 1, 3, 3, 3, 5, 5, 5, 7, 7, 7] 1).getD 0 0 = 0 ∧
    (reconstructLine [1, 1, 1, 3, 3, 3, 5, 5, 5, 7, 7, 7] 1).getD (3 * 1 + 0) 0 =
      pget [1, 1, 1, 3, 3, 3, 5, 5, 5, 7, 7, 7] (6 * 1 + 0) +
        (pget [1, 1, 1, 3, 3, 3, 5, 5, 5, 7, 7, 7] (6 * 1 + 0 + 3) -
          pget [1, 1, 1, 3, 3, 3, 5, 5, 5, 7, 7, 7] (6 * 1 + 0)) * 0.5 := by
  obtain ⟨h1, h2, h3⟩ := c8_reconstruct_amended [1, 1, 1, 3, 3, 3, 5, 5, 5, 7, 7, 7] 1 (by simp)
  exact ⟨by simpa using h1, h2 0 (by simp) (by norm_num),
    h3 1 0 (by norm_num) (by norm_num) (by simp)⟩

/-- C8 counterexample: with `startOffset 1`, output point 0 is `0`, not
the midpoint `2` of input vertices 0 and 1 — head slots are skipped, not
reconstructed from cap geometry as claimed. -/
theorem c8_reconstruct_counterexample :
    (reconstructLine [1, 1, 1, 3, 3, 3, 5, 5, 5, 7, 7, 7] 1).getD 0 0 ≠ 2 := by
  rw [reconstructLine_zero_slot [1, 1, 1, 3, 3, 3, 5, 5, 5, 7, 7, 7] 1 0 (by simp) (by norm_num)]
  norm_num

/-- C6: cap geometry.  `addCircle(x, y, lineAngle, radius, vertices,
indices)` appends exactly one center vertex `(x, y, 0)` followed by
`SECTORS_IN_CIRCLE + 1 = 9` rim vertices, rim vertex `i` at angle
`STEP*i + π/2 + lineAngle` and offset `radius*(cos, sin)` from the center
with `z = 0`, and appends exactly 9 triangles `(center, rim i,
rim (i+1) mod 9)` — the final triangle wraps around to rim vertex 0. -/
theorem c6_addCircle (x y a r : ℝ) (V I : List ℝ) :
    addCircle x y a r V I =
      (V ++ ([x, y, 0] ++ (List.range 9).flatMap fun i =>
        [x + r * Real.cos (STEP * (i : ℝ) + Real.pi / 2 + a),
         y + r * Real.sin (STEP * (i : ℝ) + Real.pi / 2 + a), 0]),
       I ++ (List.range 9).flatMap fun i =>
        [(V.length : ℝ) / 3, (V.length : ℝ) / 3 + (i : ℝ) + 1,
         (V.length : ℝ) / 3 + (((i + 1) % 9 : ℕ) : ℝ) + 1]) := by
  rw [addCircle]
  rw [addCircleLoop_closed x y a r ((V.length : ℝ) / 3) (SECTORS_IN_CIRCLE + 1) 0]
  rw [show SECTORS_IN_CIRCLE + 1 = 9 from rfl]
  refine Prod.ext ?_ ?_
  · show V ++ ([x, y, 0] ++ _) = V ++ ([x, y, 0] ++ _)
    refine congrArg _ (congrArg _ ?_)
    show (List.range 9).flatMap (fun m =>
        [x + r * Real.cos (STEP * ((0 + m : ℕ) : ℝ) + Real.pi / 2 + a),
         y + r * Real.sin (STEP * ((0 + m : ℕ) : ℝ) + Real.pi / 2 + a), 0]) =
      (List.range 9).flatMap (fun i =>
        [x + r * Real.cos (STEP * (i : ℝ) + Real.pi / 2 + a),
         y + r * Real.sin (STEP * (i : ℝ) + Real.pi / 2 + a), 0])
    apply congrArg
    funext m
    rw [Nat.zero_add]
  · show I ++ _ = I ++ _
    refine congrArg _ ?_
    show (List.range 9).flatMap (fun m =>
        [(V.length : ℝ) / 3, (V.length : ℝ) / 3 + ((0 + m : ℕ) : ℝ) + 1,
         (V.length : ℝ) / 3 + (((0 + m + 1) % 9 : ℕ) : ℝ) + 1]) =
      (List.range 9).flatMap (fun i =>
        [(V.length : ℝ) / 3, (V.length : ℝ) / 3 + (i : ℝ) + 1,
         (V.length : ℝ) / 3 + (((i + 1) % 9 : ℕ) : ℝ) + 1])
    apply congrArg
    funext m
    rw [Nat.zero_add]
/-- C5 counterexample: for the two-point polyline `[0,0, 0,10]` the claim
predicts the default incline angle 0, putting rim vertex 0 of the start cap
at `x = cos(π/2) = 0`; the code computes the angle `π/2` from the segment
direction, putting it at `x = cos(π) = -1 ≠ 0`. -/
theorem c5_cap_counterexample :
    (triangulateLine [0, 0, 0, 10] 1 [] [] true false).1.getD 3 0 ≠ 0 := by
  have hang : startCapAngle [0, 0, 0, 10] = Real.pi / 2 := by
    rw [startCapAngle, if_pos (by simp)]
    have h1 : pget [0, 0, 0, 10] 2 - pget [0, 0, 0, 10] 0 = 0 := by norm_num [pget]
    have h2 : pget [0, 0, 0, 10] 3 - pget [0, 0, 0, 10] 1 = 10 := by norm_num [pget]
    rw [h1, h2]
    have harg : Complex.arg ⟨0, 10⟩ = Real.pi / 2 := by
      rw [Complex.arg_eq_pi_div_two_iff]
      norm_num
    rw [angle2, harg, if_neg (by linarith [Real.pi_pos])]
  have hV1 : (addCircle 0 0 (startCapAngle [0, 0, 0, 10]) 1 [] []).1 =
      [0, 0, 0] ++ (List.range (SECTORS_IN_CIRCLE + 1)).flatMap (fun m =>
        [0 + 1 * Real.cos (STEP * ((0 + m : ℕ) : ℝ) + Real.pi / 2 + startCapAngle [0, 0, 0, 10]),
         0 + 1 * Real.sin (STEP * ((0 + m : ℕ) : ℝ) + Real.pi / 2 + startCapAngle [0, 0, 0, 10]),
         0]) := by
    show ([] ++ ([0, 0, 0] ++ (addCircleLoop 0 0 (startCapAngle [0, 0, 0, 10]) 1
        (((([] : List ℝ)).length : ℝ) / 3) 0 (SECTORS_IN_CIRCLE + 1)).1)) = _
    rw [addCircleLoop_closed]
    simp
  rw [triangulateLine, if_neg (by simp)]
  show ((addCircle (pget [0, 0, 0, 10] 0) (pget [0, 0, 0, 10] 1) (startCapAngle [0, 0, 0, 10])
      1 [] []).1 ++ extrudeVerts [0, 0, 0, 10] 1 0 ⟨0, 0, 0⟩).getD 3 0 ≠ 0
  rw [show pget [0, 0, 0, 10] 0 = 0 by norm_num [pget], show pget [0, 0, 0, 10] 1 = 0 by
    norm_num [pget]]
  rw [hV1]
  rw [show SECTORS_IN_CIRCLE + 1 = 8 + 1 from rfl, List.range_succ_eq_map, List.flatMap_cons]
  rw [List.append_assoc]
  rw [List.getD_append_right _ _ _ _ (by simp)]
  simp only [List.length_cons, List.length_nil]
  rw [show (3 : ℕ) - 3 = 0 by omega]
  rw [List.append_assoc]
  rw [List.getD_append _ _ _ _ (by simp)]
  simp only [List.getD_cons_zero]
  rw [hang]
  rw [show STEP * ((0 + 0 : ℕ) : ℝ) + Real.pi / 2 + Real.pi / 2 = Real.pi by push_cast; ring]
  rw [Real.cos_pi]
  norm_num

/-- C5 (amended): cap incline angles.  The defaults (0 for the start cap,
π for the end cap) apply only when the flat input holds exactly 2 numbers —
a single point — because the source tests `points.length !== 2`.  For any
polyline of at least 2 points (flat length ≥ 4, including exactly two
points) both angles are computed from the segment directions: the start
angle from `p1 - p0`, the end angle from `p_{N-2} - p_{N-1}`. -/
theorem c5_cap_angles_amended (points : List ℝ) (h4 : 4 ≤ points.length) (x y : ℝ) :
    startCapAngle points =
      angle2 (pget points 2 - pget points 0) (pget points 3 - pget points 1) ∧
    endCapAngle points =
      angle2 (pget points (points.length - 4) - pget points (points.length - 2))
        (pget points (points.length - 3) - pget points (points.length - 1)) ∧
    startCapAngle [x, y] = 0 ∧ endCapAngle [x, y] = Real.pi := by
  refine ⟨?_, ?_, ?_, ?_⟩
  · rw [startCapAngle, if_pos (by omega : points.length ≠ 2)]
  · rw [endCapAngle, if_pos (by omega : points.length ≠ 2)]
  · rw [startCapAngle, if_neg (by simp : ¬ ([x, y] : List ℝ).length ≠ 2)]
  · rw [endCapAngle, if_neg (by simp : ¬ ([x, y] : List ℝ).length ≠ 2)]

/-- C5 witness: the amended angle theorem applied to the two-point
polyline `[0,0, 0,10]` and the single point `[5, 7]`. -/
theorem c5_cap_angles_amended_witness :
    startCapAngle [0, 0, 0, 10] =
      angle2 (pget [0, 0, 0, 10] 2 - pget [0, 0, 0, 10] 0)
        (pget [0, 0, 0, 10] 3 - pget [0, 0, 0, 10] 1) ∧
    endCapAngle [0, 0, 0, 10] =
      angle2 (pget [0, 0, 0, 10] 0 - pget [0, 0, 0, 10] 2)
        (pget [0, 0, 0, 10] 1 - pget [0, 0, 0, 10] 3) ∧
    startCapAngle [5, 7] = 0 ∧ endCapAngle [5, 7] = Real.pi :=
  c5_cap_angles_amended [0, 0, 0, 10] (by simp) 5 7

lemma flatMap_congr_range (n : ℕ) (f g : ℕ → List ℝ) (h : ∀ k, k < n → f k = g k) :
    (List.range n).flatMap f = (List.range n).flatMap g := by
  induction n with
  | zero => simp
  | succ n ih =>
    rw [List.range_succ, List.flatMap_append, List.flatMap_append,
      ih (fun k hk => h k (by omega))]
    simp [h n (by omega)]

/-- C7 (amended): miter averaging.  The offset direction is
`normalize(n - p) × ẑ = (u.y, -u.x, 0)` — the clockwise (-90°)
perpendicular, not the counterclockwise left-hand one the claim names —
and the vertices emitted by the loop are exactly `point ± aver * width`
where `aver` is `dir` for the first point, `(dir + prevDir) * (1 - 0.5 *
dot(dir, prevDir))` for interior points, and the last segment's `dir`
reused unchanged for the final point. -/
theorem c7_miter_amended (points : List ℝ) (w : ℝ) (N : ℕ)
    (hlen : points.length = 2 * N) (hN : 2 ≤ N) :
    segPerp = (fun p n : Vec3 =>
      (⟨(Vec3.normalize (Vec3.sub n p)).y, -(Vec3.normalize (Vec3.sub n p)).x, 0⟩ : Vec3)) ∧
    extrudeVerts points w 0 ⟨0, 0, 0⟩ =
      (List.range N).flatMap (fun k =>
        offsetPair (ptAt points k)
          (if k + 1 < N then
            (if k = 0 then dirAt points k
             else miterAver (dirAt points k) (dirAt points (k - 1)))
           else dirAt points (N - 2)) w) := by
  constructor
  · funext p n
    exact segPerp_eq p n
  · rw [extrude_closed points w ⟨0, 0, 0⟩ (by omega) (by omega)]
    rw [show points.length / 2 = N by omega]
    apply flatMap_congr_range
    intro k hk
    apply congrArg (fun d => offsetPair (ptAt points k) d w)
    rw [emitDirAt]
    by_cases hks : k + 1 < N
    · rw [if_pos (by omega : 2 * (k + 1) < points.length), if_pos hks, averAt]
      by_cases hk0 : k = 0
      · subst hk0
        rfl
      · rw [if_neg hk0, if_neg hk0]
    · rw [if_neg (by omega : ¬ 2 * (k + 1) < points.length), if_neg hks]
      rw [show k - 1 = N - 2 by omega]

/-- C7 witness: the emitted-pair characterization applied to
`[0,0, 10,0]` with width 2. -/
theorem c7_miter_amended_witness :
    extrudeVerts [0, 0, 10, 0] 2 0 ⟨0, 0, 0⟩ =
      (List.range 2).flatMap (fun k =>
        offsetPair (ptAt [0, 0, 10, 0] k)
          (if k + 1 < 2 then
            (if k = 0 then dirAt [0, 0, 10, 0] k
             else miterAver (dirAt [0, 0, 10, 0] k) (dirAt [0, 0, 10, 0] (k - 1)))
           else dirAt [0, 0, 10, 0] (2 - 2)) 2) :=
  (c7_miter_amended [0, 0, 10, 0] 2 2 (by simp) (by norm_num)).2

/-- C7 counterexample: for the segment from `(0,0,0)` to `(10,0,0)` the
code's offset direction is `(0,-1,0)`, which is not the left-hand (90°
counterclockwise) perpendicular `(0,1,0)` of the normalized segment
direction named by the claim. -/
theorem c7_miter_counterexample :
    segPerp ⟨0, 0, 0⟩ ⟨10, 0, 0⟩ ≠
      specLeftPerp90 (Vec3.normalize (Vec3.sub ⟨10, 0, 0⟩ ⟨0, 0, 0⟩)) := by
  rw [segPerp_ten]
  rw [show Vec3.sub ⟨10, 0, 0⟩ ⟨0, 0, 0⟩ = ⟨10, 0, 0⟩ by simp [Vec3.sub]]
  rw [normalize_ten]
  simp only [specLeftPerp90, ne_eq, Vec3.mk.injEq]
  norm_num
